import Mathlib

/-
Verification of the mixture composition model of `openpnm/phases/mixtures/GenericMixture.py`
(class `GenericMixture`).

Embedding conventions:
* A numpy float value is modelled by `Val`: either the NaN "unset" sentinel or an exact
  rational.  All arithmetic propagates NaN exactly as IEEE floats do; comparisons with NaN
  are false while `!=` against NaN is true, as in numpy.  (Rounding of binary floats is
  idealised away: the sentences being checked all use exact decimal arithmetic.)
* A dotted property key `element.property[.qualifier]` is modelled by its list of dot-free
  segments (`Key := List String`); `'a.b.' + name` becomes `["a", "b", name]`.  Component
  and property names are assumed dot-free, so `key.split('.')[0]`, `key.split('.')[-1]` and
  `key.rsplit('.', 1)[0]` become head / last / dropLast of the segment list.
* The dict-like property store of the external base class is an association list from keys
  to per-pore arrays; writes broadcast single values to a full-length array, following the
  spec's description of the Property Store collaborator (the base class is not in source).
* The project namespace is the list of component phase objects; `self.project[name]`
  resolves by name.
* `__getitem__` / `interleave_data` / `_update_total_molfrac` are mutually recursive in the
  source (a missing key can recurse through interleaving forever, which Python stops with
  RecursionError).  They are embedded in fueled form: every call level consumes one unit of
  fuel and exhaustion yields the distinguished `Err.recursionError`.  Theorems quantify over
  any sufficiently large fuel, so the fuel is purely a termination device.
* Exceptions are modelled by `Except Err`; a raised exception is an `Except.error`.
-/

/-- Numeric cell of a numpy float array: NaN sentinel or an exact rational. -/
inductive Val where
  | nan : Val
  | num (q : ℚ) : Val
deriving DecidableEq, Repr

/-- Addition with NaN propagation (numpy `+`). -/
def Val.add : Val → Val → Val
  | .num a, .num b => .num (a + b)
  | _, _ => .nan

/-- Subtraction with NaN propagation (numpy `-`). -/
def Val.sub : Val → Val → Val
  | .num a, .num b => .num (a - b)
  | _, _ => .nan

/-- Multiplication with NaN propagation (numpy `*`). -/
def Val.mul : Val → Val → Val
  | .num a, .num b => .num (a * b)
  | _, _ => .nan

/-- Division with NaN propagation (numpy `/`).  Division by zero is modelled as NaN
(IEEE would give ±inf for a nonzero numerator; no checked sentence exercises this). -/
def Val.div : Val → Val → Val
  | .num a, .num b => if b = 0 then .nan else .num (a / b)
  | _, _ => .nan

/-- Test for the NaN sentinel (`np.isnan`). -/
def Val.isnan : Val → Bool
  | .nan => true
  | .num _ => false

/-- Elementwise `!= 1.0`: true on NaN, as in numpy. -/
def Val.neqOne : Val → Bool
  | .nan => true
  | .num q => decide (q ≠ 1)

/-- Elementwise `< 1.0`: false on NaN, as in numpy. -/
def Val.ltOne : Val → Bool
  | .nan => false
  | .num q => decide (q < 1)

/-- Elementwise `> 1.0`: false on NaN, as in numpy. -/
def Val.gtOne : Val → Bool
  | .nan => false
  | .num q => decide (1 < q)

/-- Elementwise `< 0.0`: false on NaN, as in numpy. -/
def Val.ltZero : Val → Bool
  | .nan => false
  | .num q => decide (q < 0)

/-- A numpy value that is either a python scalar (`0.0`, `1.0`, `np.nan`) or an array;
scalars broadcast on arithmetic and on storage. -/
inductive NVal where
  | scalar (v : Val)
  | arr (vs : List Val)
deriving DecidableEq, Repr

/-- Accumulating `mf += array` where `mf` may still be the scalar `0.0`
(numpy broadcast on the left operand). -/
def NVal.addArr : NVal → List Val → NVal
  | .scalar v, ws => .arr (ws.map (fun w => Val.add v w))
  | .arr vs, ws => .arr (List.zipWith Val.add vs ws)

/-- Elementwise `array / total` where `total` may be the scalar `0.0` or an array. -/
def NVal.divBy (vs : List Val) : NVal → List Val
  | .scalar w => vs.map (fun v => Val.div v w)
  | .arr ws => List.zipWith Val.div vs ws

/-- A dotted property key, as its list of dot-free segments. -/
abbrev Key := List String

/-- Segment `key.split('.')[0]` (the element kind). -/
def headSeg (k : Key) : String := k.headD ""

/-- Segment `key.split('.')[-1]` (the qualifier position). -/
def lastSeg (k : Key) : String := k.getLastD ""

/-- Key `key.rsplit('.', maxsplit=1)[0]`: the key with its last segment removed
(a one-segment key is returned unchanged, as in Python). -/
def stripLast (k : Key) : Key := if k.length ≤ 1 then k else k.dropLast

/-- Python `dotted_key.endswith(name)` for a dot-free `name`: the final segment ends with
`name` as a string. -/
def keyEndsWith (k : Key) (name : String) : Bool :=
  List.isSuffixOf name.data (lastSeg k).data

/-- The associative property store of the dict-like base class. -/
abbrev Store := List (Key × List Val)

/-- Lookup in the store (`dict.__getitem__`, minus the KeyError which callers raise). -/
def storeGet (s : Store) (k : Key) : Option (List Val) :=
  match s with
  | [] => none
  | (k', v) :: rest => if k' = k then some v else storeGet rest k

/-- Update/insert in the store (`dict.__setitem__`); preserves insertion order. -/
def storeSet (s : Store) (k : Key) (v : List Val) : Store :=
  match s with
  | [] => [(k, v)]
  | (k', v') :: rest => if k' = k then (k, v) :: rest else (k', v') :: storeSet rest k v

/-- A pure-phase component object: a name unique in the project, and its own property
store.  Modelled from the spec: the component collaborator exposes `.name`, a property
list, and `get(propertyKey) -> array | KeyNotFoundError`. -/
structure Component where
  name : String
  store : Store
deriving DecidableEq, Repr

/-- The mixture state: `settings['components']` (the registry of component names), the
mixture's own property store, and the pore/throat counts of the attached network
(the external `_count`). -/
structure Mixture where
  comps : List String
  store : Store
  Np : ℕ
  Nt : ℕ
deriving DecidableEq, Repr

/-- Exceptions raised by the mixture code. -/
inductive Err where
  | keyError (key : Key)
  | notNormalized (element : String)
  | alreadyAssigned (key : Key)
  | notInProject (name : String)
  | notInMixture (name : String)
  | valueError (name : String)
  | nameError
  | recursionError
deriving DecidableEq, Repr

/-- The network element count `self._count(element)` (external collaborator). -/
def Mixture.count (m : Mixture) (element : String) : ℕ :=
  if element = "pore" then m.Np else if element = "throat" then m.Nt else 0

/-- Resolution of a name through the project namespace (`self.project[name]`). -/
def lookupComp (proj : List Component) (n : String) : Option Component :=
  proj.find? (fun c => c.name == n)

/-- The `components` property getter (`_get_comps`):
`{item: self.project[item] for item in self.settings['components']}`, in registry order.
Names that fail to resolve are dropped here; every checked sentence is about states in
which all registered names resolve. -/
def componentsOf (proj : List Component) (m : Mixture) : List Component :=
  m.comps.filterMap (fun n => lookupComp proj n)

/-- The key `'pore.mole_fraction.' + name`. -/
def mfKey (n : String) : Key := ["pore", "mole_fraction", n]

/-- The key `'pore.concentration.' + name`. -/
def concKey (n : String) : Key := ["pore", "concentration", n]

/-- The key `'pore.mole_fraction.all'`. -/
def allKey : Key := ["pore", "mole_fraction", "all"]

/-- Property keys visible directly on the mixture (`super().props()`, i.e. the stored
keys; every stored array in this model is a numeric property, labels are out of scope).
Sortedness of the returned list is omitted: all callers use it as a set. -/
def propsOwn (m : Mixture) : List Key := m.store.map Prod.fst

/-- Method `props(deep)`: with `deep=True`, every component property suffixed with the
component's name, followed by the mixture's own properties. -/
def props (proj : List Component) (m : Mixture) (deep : Bool) : List Key :=
  (if deep then
    (componentsOf proj m).flatMap (fun c => c.store.map (fun kv => kv.1 ++ [c.name]))
  else []) ++ propsOwn m

/-- The invalid write targets of `__setitem__`:
`set(self.props(deep=True)).difference(set(self.props()))`. -/
def invalidKeys (proj : List Component) (m : Mixture) : List Key :=
  (props proj m true).filter (fun k => decide (¬ k ∈ propsOwn m))

/-- Broadcast-on-store of the external base class `__setitem__`: modelled from the spec,
which says a scalar value is broadcast to a full `count(element)`-length array.
A python scalar, and equally its `np.array(x, ndmin=1)` singleton image, broadcasts. -/
def broadcastArr (m : Mixture) (key : Key) : NVal → List Val
  | .scalar v => List.replicate (m.count (headSeg key)) v
  | .arr vs =>
    if vs.length = 1 then List.replicate (m.count (headSeg key)) (vs.headD Val.nan)
    else vs

/-- Mixture `__setitem__` (GenericMixture.py lines 81-86): refuse any key already
assigned to a component object, otherwise store (via the broadcasting base class). -/
def setItem (proj : List Component) (m : Mixture) (key : Key) (value : NVal) :
    Except Err Mixture :=
  if key ∈ invalidKeys proj m then .error (.alreadyAssigned key)
  else .ok { m with store := storeSet m.store key (broadcastArr m key value) }

/-- Fallback `super().interleave_data(prop)` of the external base class.  Modelled from
the spec: the base falls back to whatever the plain property store holds for the bare
key, raising KeyNotFound if nothing is there. -/
def base_interleave_data (m : Mixture) (prop : Key) : Except Err (List Val × Mixture) :=
  match storeGet m.store prop with
  | some v => .ok (v, m)
  | none => .error (.keyError prop)

mutual

/-- Mixture `__getitem__` (GenericMixture.py lines 65-79): direct lookup; else, if the
last dotted segment names a registered component, delegate to that component (its own
KeyError, like an unresolvable project name, falls through to interleaving); else
interleave.  Reads can mutate the store (through the unity check), so the surviving
state is returned with the value. -/
def getItemF (proj : List Component) (fuel : ℕ) (m : Mixture) (key : Key) :
    Except Err (List Val × Mixture) :=
  match fuel with
  | 0 => .error .recursionError
  | f + 1 =>
    match storeGet m.store key with
    | some vals => .ok (vals, m)
    | none =>
      if lastSeg key ∈ m.comps then
        match lookupComp proj (lastSeg key) with
        | some comp =>
          match storeGet comp.store (stripLast key) with
          | some vals => .ok (vals, m)
          | none => interleaveF proj f m key
        | none => interleaveF proj f m key
      else interleaveF proj f m key

termination_by fuel
/-- Method `interleave_data` (GenericMixture.py lines 270-303): for a pore key, insist
the aggregate mole fraction is unity (after at most one recompute); then blend each
component's value of the property weighted by its mole fraction; a KeyError anywhere in
the blending loop degrades to the base-class fallback. -/
def interleaveF (proj : List Component) (fuel : ℕ) (m : Mixture) (prop : Key) :
    Except Err (List Val × Mixture) :=
  match fuel with
  | 0 => .error .recursionError
  | f + 1 =>
    let element := headSeg prop
    match (if element = "pore" then poreUnityCheckF proj f m element else .ok m) with
    | .error e => .error e
    | .ok m1 =>
      match accumF proj f m1 (componentsOf proj m1) prop element
          (List.replicate (m1.count element) (Val.num 0)) with
      | .ok r => .ok r
      | .error (.keyError _) => base_interleave_data m1 prop
      | .error e => .error e

termination_by fuel
/-- The unity precondition of `interleave_data` (GenericMixture.py lines 291-296),
entered only for the pore element kind: if any entry of the aggregate differs from 1.0,
recompute the aggregate once, and if the mismatch persists raise the hard
composition-not-normalized error. -/
def poreUnityCheckF (proj : List Component) (fuel : ℕ) (m : Mixture) (element : String) :
    Except Err Mixture :=
  match fuel with
  | 0 => .error .recursionError
  | f + 1 =>
    match getItemF proj f m [element, "mole_fraction", "all"] with
    | .error e => .error e
    | .ok (mfall, m1) =>
      if mfall.any Val.neqOne then
        match update_total_molfrac proj f m1 with
        | .error e => .error e
        | .ok m2 =>
          match getItemF proj f m2 [element, "mole_fraction", "all"] with
          | .error e => .error e
          | .ok (mfall2, m3) =>
            if mfall2.any Val.neqOne then .error (.notNormalized element)
            else .ok m3
      else .ok m1

termination_by fuel
/-- Method `_update_total_molfrac` (GenericMixture.py lines 107-113): sum every
registered component's pore mole-fraction array (starting from the scalar `0.0`) and
store the result as the aggregate `pore.mole_fraction.all`. -/
def update_total_molfrac (proj : List Component) (fuel : ℕ) (m : Mixture) :
    Except Err Mixture :=
  match fuel with
  | 0 => .error .recursionError
  | f + 1 =>
    match sumMolfracF proj f m (componentsOf proj m) (NVal.scalar (Val.num 0)) with
    | .error e => .error e
    | .ok (mf, m1) => setItem proj m1 allKey mf

termination_by fuel
/-- The read-and-accumulate loop of `_update_total_molfrac`:
`for item in comps: mf += self['pore.mole_fraction.' + item.name]`. -/
def sumMolfracF (proj : List Component) (fuel : ℕ) (m : Mixture)
    (comps : List Component) (acc : NVal) : Except Err (NVal × Mixture) :=
  match fuel with
  | 0 => .error .recursionError
  | f + 1 =>
    match comps with
    | [] => .ok (acc, m)
    | c :: rest =>
      match getItemF proj f m (mfKey c.name) with
      | .error e => .error e
      | .ok (v, m1) => sumMolfracF proj f m1 rest (NVal.addArr acc v)

termination_by fuel
/-- The blending loop of `interleave_data`:
`for comp in components: vals += comp[prop] * self[element.mole_fraction.comp]`.
The component read is the component object's own store get (a KeyError when absent,
which the caller catches). -/
def accumF (proj : List Component) (fuel : ℕ) (m : Mixture) (comps : List Component)
    (prop : Key) (element : String) (vals : List Val) : Except Err (List Val × Mixture) :=
  match fuel with
  | 0 => .error .recursionError
  | f + 1 =>
    match comps with
    | [] => .ok (vals, m)
    | c :: rest =>
      match storeGet c.store prop with
      | none => .error (.keyError prop)
      | some cv =>
        match getItemF proj f m [element, "mole_fraction", c.name] with
        | .error e => .error e
        | .ok (mf, m1) =>
          accumF proj f m1 rest prop element (List.zipWith Val.add vals (List.zipWith Val.mul cv mf))

termination_by fuel
end

/-- The NaN scan of `update_mole_fractions` (GenericMixture.py lines 139-142):
`hasnans.append(np.any(np.isnan(self['pore.mole_fraction.' + item.name])))` per
component, threading the state through the reads. -/
def hasnansF (proj : List Component) (fuel : ℕ) (m : Mixture) (comps : List Component) :
    Except Err (List Bool × Mixture) :=
  match fuel with
  | 0 => .error .recursionError
  | f + 1 =>
    match comps with
    | [] => .ok ([], m)
    | c :: rest =>
      match getItemF proj f m (mfKey c.name) with
      | .error e => .error e
      | .ok (v, m1) =>
        match hasnansF proj f m1 rest with
        | .error e => .error e
        | .ok (bs, m2) => .ok (v.any Val.isnan :: bs, m2)

/-- The back-solve loop of `update_mole_fractions` (lines 147-149):
`for item in comps: self[key] -= self['pore.mole_fraction.' + item.name]`, each step a
read-modify-write of `key`. -/
def subLoopF (proj : List Component) (fuel : ℕ) (m : Mixture) (key : Key)
    (others : List Component) : Except Err Mixture :=
  match fuel with
  | 0 => .error .recursionError
  | f + 1 =>
    match others with
    | [] => .ok m
    | c :: rest =>
      match getItemF proj f m key with
      | .error e => .error e
      | .ok (cur, m1) =>
        match getItemF proj f m1 (mfKey c.name) with
        | .error e => .error e
        | .ok (other, m2) =>
          match setItem proj m2 key (NVal.arr (List.zipWith Val.sub cur other)) with
          | .error e => .error e
          | .ok m3 => subLoopF proj f m3 key rest

/-- The concentration-total loop of `update_mole_fractions` (lines 152-154):
`total_conc += self['pore.concentration.' + item.name]` starting from the scalar 0.0. -/
def sumConcF (proj : List Component) (fuel : ℕ) (m : Mixture) (comps : List Component)
    (acc : NVal) : Except Err (NVal × Mixture) :=
  match fuel with
  | 0 => .error .recursionError
  | f + 1 =>
    match comps with
    | [] => .ok (acc, m)
    | c :: rest =>
      match getItemF proj f m (concKey c.name) with
      | .error e => .error e
      | .ok (v, m1) => sumConcF proj f m1 rest (NVal.addArr acc v)

/-- The concentration-normalize loop of `update_mole_fractions` (lines 155-157):
`self['pore.mole_fraction.' + item.name] = self['pore.concentration.' + item.name] / total`. -/
def divSetLoopF (proj : List Component) (fuel : ℕ) (m : Mixture) (comps : List Component)
    (total : NVal) : Except Err Mixture :=
  match fuel with
  | 0 => .error .recursionError
  | f + 1 =>
    match comps with
    | [] => .ok m
    | c :: rest =>
      match getItemF proj f m (concKey c.name) with
      | .error e => .error e
      | .ok (conc, m1) =>
        match setItem proj m1 (mfKey c.name) (NVal.arr (NVal.divBy conc total)) with
        | .error e => .error e
        | .ok m2 => divSetLoopF proj f m2 rest total

/-- Method `update_mole_fractions` (GenericMixture.py lines 119-158): optionally release
a named component to NaN; if exactly one component's mole-fraction array contains NaN,
back-solve it as 1.0 minus every other component's array; otherwise normalize every
component by the total concentration; finally recompute the aggregate. -/
def update_mole_fractions (proj : List Component) (fuel : ℕ) (m : Mixture)
    (free_comp : Option String) : Except Err Mixture :=
  match fuel with
  | 0 => .error .recursionError
  | f + 1 =>
    match (match free_comp with
           | some n => setItem proj m (mfKey n) (NVal.scalar Val.nan)
           | none => .ok m) with
    | .error e => .error e
    | .ok m1 =>
      let comps := componentsOf proj m1
      match hasnansF proj f m1 comps with
      | .error e => .error e
      | .ok (hasnans, m2) =>
        match (if hasnans.count true = 1 then
                 let idx := hasnans.findIdx (fun b => b)
                 let comp := (comps.drop idx).headD { name := "", store := [] }
                 let rest := comps.take idx ++ (comps.drop idx).drop 1
                 match setItem proj m2 (mfKey comp.name) (NVal.scalar (Val.num 1)) with
                 | .error e => .error e
                 | .ok m3 => subLoopF proj f m3 (mfKey comp.name) rest
               else
                 match sumConcF proj f m2 comps (NVal.scalar (Val.num 0)) with
                 | .error e => .error e
                 | .ok (total, m3) => divSetLoopF proj f m3 comps total :
                 Except Err Mixture) with
        | .error e => .error e
        | .ok m4 => update_total_molfrac proj f m4

/-- The loop of `_reset_molefracs`:
`for item in self.settings['components']: self['pore.mole_fraction.' + item] = np.nan`. -/
def resetLoopF (proj : List Component) (m : Mixture) (names : List String) :
    Except Err Mixture :=
  match names with
  | [] => .ok m
  | n :: rest =>
    match setItem proj m (mfKey n) (NVal.scalar Val.nan) with
    | .error e => .error e
    | .ok m1 => resetLoopF proj m1 rest

/-- Method `_reset_molefracs` (GenericMixture.py lines 115-117). -/
def reset_molefracs (proj : List Component) (m : Mixture) : Except Err Mixture :=
  resetLoopF proj m m.comps

/-- Method `set_concentration` (GenericMixture.py lines 160-187): validate membership in
the project and in the mixture, then, only when the given values are non-empty, store
them under `pore.concentration.<name>` and reset every registered component's
mole-fraction array to NaN.  (The string-argument overload resolves the name through the
registry first and is subsumed by passing the resolved component.) -/
def set_concentration (proj : List Component) (m : Mixture) (component : Component)
    (values : List Val) : Except Err Mixture :=
  if ¬ component ∈ proj then .error (.notInProject component.name)
  else if ¬ component ∈ componentsOf proj m then .error (.notInMixture component.name)
  else if values.length ≠ 0 then
    match setItem proj m (concKey component.name) (NVal.arr values) with
    | .error e => .error e
    | .ok m1 => reset_molefracs proj m1
  else .ok m

/-- Method `set_mole_fraction` (GenericMixture.py lines 189-222): validate membership,
warn (second component of the result, without failing) when any value is `> 1.0` or
`< 0.0`, store non-empty values under `pore.mole_fraction.<name>`, and recompute the
aggregate. -/
def set_mole_fraction (proj : List Component) (fuel : ℕ) (m : Mixture)
    (component : Component) (values : List Val) : Except Err (Bool × Mixture) :=
  if ¬ component ∈ proj then .error (.notInProject component.name)
  else if ¬ component ∈ componentsOf proj m then .error (.notInMixture component.name)
  else
    let warned := values.any Val.gtOne || values.any Val.ltZero
    match (if values.length ≠ 0 then
             setItem proj m (mfKey component.name) (NVal.arr values)
           else .ok m) with
    | .error e => .error e
    | .ok m1 =>
      match update_total_molfrac proj fuel m1 with
      | .error e => .error e
      | .ok m2 => .ok (warned, m2)

/-- The name-removal loop of `_del_comps`:
`for comp in components: self.settings['components'].remove(comp.name)` (list.remove
raises ValueError when the name is absent). -/
def removeCompNames (names : List String) (components : List Component) :
    Except Err (List String) :=
  match components with
  | [] => .ok names
  | c :: rest =>
    if c.name ∈ names then removeCompNames (names.erase c.name) rest
    else .error (.valueError c.name)

/-- Method `_del_comps` (GenericMixture.py lines 224-234): deregister every given name;
then delete from the store every key ending in the name bound by the *last* iteration of
the removal loop (the deletion loop in the source sits outside the `for comp` loop, so
`comp` is its leftover value — and an empty argument list leaves it unbound, a Python
NameError); finally reset the aggregate to NaN. -/
def del_comps (proj : List Component) (m : Mixture) (components : List Component) :
    Except Err Mixture :=
  match removeCompNames m.comps components with
  | .error e => .error e
  | .ok comps' =>
    match components.getLast? with
    | none => .error .nameError
    | some comp =>
      let m1 : Mixture :=
        { m with
            comps := comps',
            store := m.store.filter (fun kv => ¬ keyEndsWith kv.1 comp.name) }
      setItem proj m1 allKey (NVal.scalar Val.nan)

/-- Method `_set_comps` (GenericMixture.py lines 240-248): extend the registry with the
given components' names and deduplicate.  Python deduplicates via `list(set(...))`,
whose order is arbitrary; deduplication keeping first occurrences is one admissible
order, and no caller depends on the order. -/
def set_comps (m : Mixture) (components : List Component) : Mixture :=
  { m with comps := (m.comps ++ components.map (fun c => c.name)).eraseDups }

/-- Method `set_component` (GenericMixture.py lines 252-268). -/
def set_component (proj : List Component) (m : Mixture) (components : List Component)
    (mode : String) : Except Err Mixture :=
  if mode = "add" then .ok (set_comps m components)
  else if mode = "remove" then del_comps proj m components
  else .ok m

/-- The HealthDict returned by `check_mixture_health`. -/
structure HealthDict where
  mole_fraction_too_low : List ℕ
  mole_fraction_too_high : List ℕ
deriving DecidableEq, Repr

/-- Indices of `np.where(vs < 1.0)[0]`. -/
def whereLtOne (vs : List Val) : List ℕ :=
  (vs.enum.filter (fun p => Val.ltOne p.2)).map (fun p => p.1)

/-- Indices of `np.where(vs > 1.0)[0]`. -/
def whereGtOne (vs : List Val) : List ℕ :=
  (vs.enum.filter (fun p => Val.gtOne p.2)).map (fun p => p.1)

/-- Method `check_mixture_health` (GenericMixture.py lines 305-330): recompute the
aggregate, then report the pore indices where it is strictly below / strictly above 1.0
(the source assigns the index arrays only when non-empty, over the initial `[]`). -/
def check_mixture_health (proj : List Component) (fuel : ℕ) (m : Mixture) :
    Except Err (HealthDict × Mixture) :=
  match update_total_molfrac proj fuel m with
  | .error e => .error e
  | .ok m1 =>
    match getItemF proj fuel m1 allKey with
    | .error e => .error e
    | .ok (arr1, m2) =>
      match getItemF proj fuel m2 allKey with
      | .error e => .error e
      | .ok (arr2, m3) =>
        let lo := whereLtOne arr1
        let hi := whereGtOne arr2
        .ok ({ mole_fraction_too_low := if lo.length > 0 then lo else [],
               mole_fraction_too_high := if hi.length > 0 then hi else [] }, m3)

/-- Element-wise sum of a list of `n`-long arrays (the "Σ over components" of the spec),
with the empty sum being the all-zero array. -/
def sumArrays (n : ℕ) (ls : List (List Val)) : List Val :=
  ls.foldl (List.zipWith Val.add) (List.replicate n (Val.num 0))

/-- Example component "water" with a density and a viscosity property. -/
def water : Component :=
  { name := "water",
    store := [(["pore", "density"], [Val.num 10]), (["pore", "viscosity"], [Val.num 2])] }

/-- Example component "ethanol" with a density property. -/
def ethanol : Component := { name := "ethanol", store := [(["pore", "density"], [Val.num 8])] }

/-- Example project holding water and ethanol. -/
def projW : List Component := [water, ethanol]

/-- Example healthy water/ethanol mixture on a one-pore network. -/
def mW : Mixture :=
  { comps := ["water", "ethanol"],
    store := [(mfKey "water", [Val.num (1/2)]), (mfKey "ethanol", [Val.num (1/2)]),
              (allKey, [Val.num 1])],
    Np := 1, Nt := 1 }

/-- Bare example components A, B, C (no properties of their own). -/
def compA : Component := { name := "A", store := [] }

/-- Bare example component B. -/
def compB : Component := { name := "B", store := [] }

/-- Bare example component C. -/
def compC : Component := { name := "C", store := [] }

/-- Example project holding A, B, C. -/
def projABC : List Component := [compA, compB, compC]

/-- Example mixture with mole fractions A = 0.3, B = 0.5, C unset, on two pores. -/
def mABC : Mixture :=
  { comps := ["A", "B", "C"],
    store := [(mfKey "A", [Val.num (3/10), Val.num (3/10)]),
              (mfKey "B", [Val.num (1/2), Val.num (1/2)]),
              (mfKey "C", [Val.nan, Val.nan]),
              (allKey, [Val.nan, Val.nan])],
    Np := 2, Nt := 0 }

/-- Example project holding A and B only. -/
def projAB : List Component := [compA, compB]

/-- Example over-specified mixture with mole fractions A = B = 0.6 on two pores. -/
def mOver : Mixture :=
  { comps := ["A", "B"],
    store := [(mfKey "A", [Val.num (3/5), Val.num (3/5)]),
              (mfKey "B", [Val.num (3/5), Val.num (3/5)]),
              (allKey, [Val.nan, Val.nan])],
    Np := 2, Nt := 0 }

/-- Example mixture registering A whose mole-fraction array was never seeded
(reachable via `set_component(compA, mode='add')` on a fresh mixture). -/
def mUnseeded : Mixture :=
  { comps := ["A"], store := [(allKey, [Val.num 1])], Np := 1, Nt := 0 }

/-- Example under-specified mixture: A = 0.4, B = 0.5, aggregate stored as 0.9, on one
pore. -/
def mUnder : Mixture :=
  { comps := ["A", "B"],
    store := [(mfKey "A", [Val.num (2/5)]), (mfKey "B", [Val.num (1/2)]),
              (allKey, [Val.num (9/10)])],
    Np := 1, Nt := 0 }

/-- Example component carrying a throat viscosity. -/
def compV : Component :=
  { name := "V", store := [(["throat", "viscosity"], [Val.num 3])] }

/-- Example project holding only `compV`. -/
def projV : List Component := [compV]

/-- Example mixture on a one-throat network whose throat aggregate mole fraction is 2.0
(not unity, and not renormalizable: the single component's stored throat fraction is
itself 2.0). -/
def mThroat : Mixture :=
  { comps := ["V"],
    store := [(["throat", "mole_fraction", "V"], [Val.num 2]),
              (["throat", "mole_fraction", "all"], [Val.num 2])],
    Np := 0, Nt := 1 }

/-- Example two-component mixture A = B = 0.5 with unity aggregate on one pore. -/
def mHalf : Mixture :=
  { comps := ["A", "B"],
    store := [(mfKey "A", [Val.num (1/2)]), (mfKey "B", [Val.num (1/2)]),
              (allKey, [Val.num 1])],
    Np := 1, Nt := 0 }

theorem storeGet_storeSet_self (s : Store) (k : Key) (v : List Val) :
    storeGet (storeSet s k v) k = some v := by
  induction s with
  | nil => simp [storeGet, storeSet]
  | cons kv rest ih =>
    obtain ⟨k', v'⟩ := kv
    by_cases h : k' = k
    · simp [storeGet, storeSet, h]
    · simp [storeGet, storeSet, h, ih]

theorem storeGet_storeSet_ne (s : Store) (k k' : Key) (v : List Val) (h : k' ≠ k) :
    storeGet (storeSet s k v) k' = storeGet s k' := by
  have hne : k ≠ k' := Ne.symm h
  induction s with
  | nil => simp [storeGet, storeSet, hne]
  | cons kv rest ih =>
    obtain ⟨k0, v0⟩ := kv
    by_cases h0 : k0 = k
    · subst h0
      simp [storeGet, storeSet, hne]
    · simp only [storeSet, if_neg h0, storeGet]
      by_cases h1 : k0 = k'
      · simp [h1]
      · simp [h1, ih]

theorem mem_keys_storeSet (s : Store) (k k' : Key) (v : List Val)
    (h : k' ∈ s.map Prod.fst) : k' ∈ (storeSet s k v).map Prod.fst := by
  induction s with
  | nil => simp at h
  | cons kv rest ih =>
    obtain ⟨k0, v0⟩ := kv
    simp only [List.map_cons, List.mem_cons] at h
    by_cases h0 : k0 = k
    · subst h0
      rcases h with h | h
      · subst h
        simp [storeSet]
      · simp [storeSet, h]
    · rcases h with h | h
      · simp [storeSet, h0, h]
      · simp [storeSet, h0, ih h]

theorem mem_invalidKeys_iff (proj : List Component) (m : Mixture) (k : Key) :
    k ∈ invalidKeys proj m ↔
      ((∃ c ∈ componentsOf proj m, ∃ kv ∈ c.store, kv.1 ++ [c.name] = k) ∧
        k ∉ propsOwn m) := by
  unfold invalidKeys props
  rw [List.mem_filter]
  simp only [if_true, List.mem_append, List.mem_flatMap, List.mem_map,
    decide_eq_true_eq]
  constructor
  · rintro ⟨hmem | hown, hno⟩
    · exact ⟨hmem, hno⟩
    · exact absurd hown hno
  · rintro ⟨hmem, hno⟩
    exact ⟨Or.inl hmem, hno⟩

theorem not_mem_invalidKeys_storeSet (proj : List Component) (m : Mixture) (k0 : Key)
    (v : List Val) (k : Key) (h : k ∉ invalidKeys proj m) :
    k ∉ invalidKeys proj { m with store := storeSet m.store k0 v } := by
  intro hmem
  apply h
  rw [mem_invalidKeys_iff] at hmem ⊢
  obtain ⟨hqual, hown⟩ := hmem
  refine ⟨hqual, fun hk => hown ?_⟩
  exact mem_keys_storeSet m.store k0 k v hk

theorem setItem_ok (proj : List Component) (m : Mixture) (key : Key) (val : NVal)
    (h : key ∉ invalidKeys proj m) :
    setItem proj m key val =
      .ok { m with store := storeSet m.store key (broadcastArr m key val) } := by
  simp [setItem, h]

theorem getItemF_stored (proj : List Component) (fuel : ℕ) (m : Mixture) (key : Key)
    (v : List Val) (hf : 0 < fuel) (h : storeGet m.store key = some v) :
    getItemF proj fuel m key = .ok (v, m) := by
  cases fuel with
  | zero => exact absurd hf (by simp)
  | succ f => simp [getItemF, h]

theorem broadcastArr_self (m : Mixture) (key : Key) (vs : List Val)
    (h : vs.length = m.count (headSeg key)) :
    broadcastArr m key (NVal.arr vs) = vs := by
  simp only [broadcastArr]
  by_cases h1 : vs.length = 1
  · rw [if_pos h1]
    match vs, h1 with
    | [a], _ =>
      rw [← h]
      rfl
  · rw [if_neg h1]

theorem broadcastArr_store_irrel (m : Mixture) (s : Store) (key : Key) (val : NVal) :
    broadcastArr { m with store := s } key val = broadcastArr m key val := rfl

theorem componentsOf_store_irrel (proj : List Component) (m : Mixture) (s : Store) :
    componentsOf proj { m with store := s } = componentsOf proj m := rfl

theorem val_add_comm (a b : Val) : Val.add a b = Val.add b a := by
  cases a <;> cases b <;> simp [Val.add, add_comm]

theorem val_add_right_comm (b v u : Val) :
    Val.add (Val.add b v) u = Val.add (Val.add b u) v := by
  cases b <;> cases v <;> cases u <;> simp [Val.add, add_right_comm]

theorem val_sub_sub (x a s : Val) :
    Val.sub (Val.sub x a) s = Val.sub x (Val.add a s) := by
  cases x <;> cases a <;> cases s <;> simp [Val.sub, Val.add, sub_sub]

theorem val_sub_zero (v : Val) : Val.sub v (Val.num 0) = v := by
  cases v <;> simp [Val.sub]

theorem val_add_zero_left (v : Val) : Val.add (Val.num 0) v = v := by
  cases v <;> simp [Val.add]

theorem zipWith_val_add_comm (as bs : List Val) :
    List.zipWith Val.add as bs = List.zipWith Val.add bs as := by
  induction as generalizing bs with
  | nil => cases bs <;> simp
  | cons a as ih => cases bs <;> simp [val_add_comm, ih]

theorem zipWith_val_add_right_comm (b v u : List Val) :
    List.zipWith Val.add (List.zipWith Val.add b v) u =
      List.zipWith Val.add (List.zipWith Val.add b u) v := by
  induction b generalizing v u with
  | nil => simp
  | cons x b ih =>
    cases v with
    | nil => simp
    | cons y v =>
      cases u with
      | nil => simp
      | cons z u => simp [val_add_right_comm, ih]

theorem zipWith_val_sub_sub (x a s : List Val) :
    List.zipWith Val.sub (List.zipWith Val.sub x a) s =
      List.zipWith Val.sub x (List.zipWith Val.add a s) := by
  induction x generalizing a s with
  | nil => simp
  | cons x0 x ih =>
    cases a with
    | nil => simp
    | cons a0 a =>
      cases s with
      | nil => simp
      | cons s0 s => simp [val_sub_sub, ih]

theorem zipWith_sub_replicate_zero (as : List Val) (n : ℕ) (h : as.length = n) :
    List.zipWith Val.sub as (List.replicate n (Val.num 0)) = as := by
  induction as generalizing n with
  | nil => simp
  | cons a as ih =>
    cases n with
    | zero => simp at h
    | succ k =>
      simp only [List.replicate, List.zipWith_cons_cons, val_sub_zero]
      rw [ih k (by simpa using h)]

theorem zipWith_add_replicate_zero_left (as : List Val) (n : ℕ) (h : as.length = n) :
    List.zipWith Val.add (List.replicate n (Val.num 0)) as = as := by
  induction as generalizing n with
  | nil => simp
  | cons a as ih =>
    cases n with
    | zero => simp at h
    | succ k =>
      simp only [List.replicate, List.zipWith_cons_cons, val_add_zero_left]
      rw [ih k (by simpa using h)]

theorem foldl_add_shift (ls : List (List Val)) (b v : List Val) :
    ls.foldl (List.zipWith Val.add) (List.zipWith Val.add b v) =
      List.zipWith Val.add v (ls.foldl (List.zipWith Val.add) b) := by
  induction ls generalizing b with
  | nil => simp [zipWith_val_add_comm]
  | cons u tl ih =>
    simp only [List.foldl_cons]
    rw [zipWith_val_add_right_comm, ih]

theorem sumArrays_cons (n : ℕ) (v : List Val) (ls : List (List Val)) :
    sumArrays n (v :: ls) = List.zipWith Val.add v (sumArrays n ls) := by
  unfold sumArrays
  simp only [List.foldl_cons]
  exact foldl_add_shift ls _ v

theorem length_foldl_zipWith_add (ls : List (List Val)) (v : List Val) (n : ℕ)
    (hv : v.length = n) (h : ∀ l ∈ ls, l.length = n) :
    (ls.foldl (List.zipWith Val.add) v).length = n := by
  induction ls generalizing v with
  | nil => simpa
  | cons u tl ih =>
    simp only [List.foldl_cons]
    refine ih (List.zipWith Val.add v u) ?_ (fun l hl => h l (by simp [hl]))
    rw [List.length_zipWith, hv, h u (by simp)]
    omega

theorem sumArrays_length (n : ℕ) (ls : List (List Val)) (h : ∀ l ∈ ls, l.length = n) :
    (sumArrays n ls).length = n := by
  unfold sumArrays
  exact length_foldl_zipWith_add ls _ n (by simp) h

theorem foldl_sub_eq (ls : List (List Val)) (acc : List Val) (n : ℕ)
    (hacc : acc.length = n) (h : ∀ l ∈ ls, l.length = n) :
    ls.foldl (List.zipWith Val.sub) acc = List.zipWith Val.sub acc (sumArrays n ls) := by
  induction ls generalizing acc with
  | nil =>
    simp only [List.foldl_nil, sumArrays]
    rw [zipWith_sub_replicate_zero acc n hacc]
  | cons v tl ih =>
    simp only [List.foldl_cons]
    rw [ih (List.zipWith Val.sub acc v)
          (by rw [List.length_zipWith, hacc, h v (by simp)]; omega)
          (fun l hl => h l (by simp [hl])),
        zipWith_val_sub_sub, ← sumArrays_cons]

theorem map_val_add_zero (ws : List Val) :
    ws.map (fun w => Val.add (Val.num 0) w) = ws := by
  induction ws with
  | nil => rfl
  | cons w ws ih => simp [val_add_zero_left, ih]

theorem addArr_arr (vs ws : List Val) :
    NVal.addArr (NVal.arr vs) ws = NVal.arr (List.zipWith Val.add vs ws) := rfl

theorem addArr_scalar (v : Val) (ws : List Val) :
    NVal.addArr (NVal.scalar v) ws = NVal.arr (ws.map (fun w => Val.add v w)) := rfl

theorem fold_addArr_arr (cs : List Component) (mfs : Component → List Val) (v : List Val) :
    cs.foldl (fun a c => NVal.addArr a (mfs c)) (NVal.arr v) =
      NVal.arr ((cs.map mfs).foldl (List.zipWith Val.add) v) := by
  induction cs generalizing v with
  | nil => rfl
  | cons c tl ih => rw [List.foldl_cons, addArr_arr, ih, List.map_cons, List.foldl_cons]

theorem fold_addArr_broadcast (m : Mixture) (cs : List Component)
    (mfs : Component → List Val) (h : ∀ c ∈ cs, (mfs c).length = m.Np) :
    broadcastArr m allKey
        (cs.foldl (fun a c => NVal.addArr a (mfs c)) (NVal.scalar (Val.num 0))) =
      sumArrays m.Np (cs.map mfs) := by
  cases cs with
  | nil => rfl
  | cons c tl =>
    have hc : (mfs c).length = m.Np := h c (by simp)
    rw [List.foldl_cons, addArr_scalar, map_val_add_zero, fold_addArr_arr]
    have hlen : ((tl.map mfs).foldl (List.zipWith Val.add) (mfs c)).length = m.Np := by
      refine length_foldl_zipWith_add _ _ _ hc ?_
      intro l hl
      obtain ⟨c', hc', rfl⟩ := List.mem_map.mp hl
      exact h c' (by simp [hc'])
    rw [broadcastArr_self m allKey _ (by simpa using hlen)]
    simp only [List.map_cons, sumArrays, List.foldl_cons]
    rw [zipWith_add_replicate_zero_left (mfs c) m.Np hc]

theorem storeSet_get_same (s : Store) (k : Key) (v : List Val)
    (h : storeGet s k = some v) : storeSet s k v = s := by
  induction s with
  | nil => simp [storeGet] at h
  | cons kv rest ih =>
    obtain ⟨k0, v0⟩ := kv
    by_cases h0 : k0 = k
    · subst h0
      simp only [storeGet, if_pos] at h
      simp only [Option.some.injEq] at h
      simp [storeSet, h]
    · simp only [storeGet, if_neg h0] at h
      simp [storeSet, h0, ih h]

theorem storeSet_storeSet (s : Store) (k : Key) (v w : List Val) :
    storeSet (storeSet s k v) k w = storeSet s k w := by
  induction s with
  | nil => simp [storeSet]
  | cons kv rest ih =>
    obtain ⟨k0, v0⟩ := kv
    by_cases h0 : k0 = k
    · simp [storeSet, h0]
    · simp [storeSet, h0, ih]

theorem sumMolfracF_spec (proj : List Component) (mfs : Component → List Val) :
    ∀ (cs : List Component) (fuel : ℕ) (m : Mixture) (acc : NVal),
    cs.length < fuel →
    (∀ c ∈ cs, storeGet m.store (mfKey c.name) = some (mfs c)) →
    sumMolfracF proj fuel m cs acc =
      .ok (cs.foldl (fun a c => NVal.addArr a (mfs c)) acc, m) := by
  intro cs
  induction cs with
  | nil =>
    intro fuel m acc hf _
    cases fuel with
    | zero => omega
    | succ f => simp [sumMolfracF]
  | cons c tl ih =>
    intro fuel m acc hf hst
    cases fuel with
    | zero => omega
    | succ f =>
      have h0 : 0 < f := by simp only [List.length_cons] at hf; omega
      have hlt : tl.length < f := by simp only [List.length_cons] at hf; omega
      have hst' : ∀ c' ∈ tl, storeGet m.store (mfKey c'.name) = some (mfs c') :=
        fun c' hc' => hst c' (by simp [hc'])
      simp [sumMolfracF, getItemF_stored proj f m _ (mfs c) h0 (hst c (by simp)),
        ih f m (NVal.addArr acc (mfs c)) hlt hst']

theorem update_total_molfrac_spec (proj : List Component) (m : Mixture) (fuel : ℕ)
    (mfs : Component → List Val)
    (hf : (componentsOf proj m).length + 1 < fuel)
    (hst : ∀ c ∈ componentsOf proj m, storeGet m.store (mfKey c.name) = some (mfs c))
    (hw : allKey ∉ invalidKeys proj m) :
    update_total_molfrac proj fuel m =
      .ok { m with
              store := storeSet m.store allKey
                (broadcastArr m allKey ((componentsOf proj m).foldl
                  (fun a c => NVal.addArr a (mfs c)) (NVal.scalar (Val.num 0)))) } := by
  cases fuel with
  | zero => omega
  | succ f =>
    simp only [update_total_molfrac]
    rw [sumMolfracF_spec proj mfs _ f m _ (by omega) hst]
    exact setItem_ok proj m allKey _ hw

theorem hasnansF_spec (proj : List Component) (mfs : Component → List Val) :
    ∀ (cs : List Component) (fuel : ℕ) (m : Mixture),
    cs.length < fuel →
    (∀ c ∈ cs, storeGet m.store (mfKey c.name) = some (mfs c)) →
    hasnansF proj fuel m cs = .ok (cs.map (fun c => (mfs c).any Val.isnan), m) := by
  intro cs
  induction cs with
  | nil =>
    intro fuel m hf _
    cases fuel with
    | zero => omega
    | succ f => simp [hasnansF]
  | cons c tl ih =>
    intro fuel m hf hst
    cases fuel with
    | zero => omega
    | succ f =>
      have h0 : 0 < f := by simp only [List.length_cons] at hf; omega
      have hlt : tl.length < f := by simp only [List.length_cons] at hf; omega
      have hst' : ∀ c' ∈ tl, storeGet m.store (mfKey c'.name) = some (mfs c') :=
        fun c' hc' => hst c' (by simp [hc'])
      simp [hasnansF, getItemF_stored proj f m _ (mfs c) h0 (hst c (by simp)),
        ih f m hlt hst']

theorem subLoopF_spec (proj : List Component) (mfs : Component → List Val) :
    ∀ (rest : List Component) (fuel : ℕ) (m : Mixture) (key : Key) (cur : List Val),
    rest.length < fuel →
    storeGet m.store key = some cur →
    (∀ c ∈ rest, storeGet m.store (mfKey c.name) = some (mfs c)) →
    (∀ c ∈ rest, mfKey c.name ≠ key) →
    key ∉ invalidKeys proj m →
    headSeg key = "pore" →
    cur.length = m.Np →
    (∀ c ∈ rest, (mfs c).length = m.Np) →
    subLoopF proj fuel m key rest =
      .ok { m with
              store := storeSet m.store key
                (rest.foldl (fun acc c => List.zipWith Val.sub acc (mfs c)) cur) } := by
  intro rest
  induction rest with
  | nil =>
    intro fuel m key cur hf hcur _ _ _ _ _ _
    cases fuel with
    | zero => omega
    | succ f =>
      simp only [subLoopF, List.foldl_nil]
      rw [storeSet_get_same m.store key cur hcur]
  | cons c tl ih =>
    intro fuel m key cur hf hcur hst hne hw hkey hlen hlens
    cases fuel with
    | zero => omega
    | succ f =>
      have h0 : 0 < f := by simp only [List.length_cons] at hf; omega
      have hcount : m.count (headSeg key) = m.Np := by
        rw [hkey]; simp [Mixture.count]
      have hbc : broadcastArr m key (NVal.arr (List.zipWith Val.sub cur (mfs c))) =
          List.zipWith Val.sub cur (mfs c) := by
        refine broadcastArr_self m key _ ?_
        rw [List.length_zipWith, hlen, hlens c (by simp), hcount]
        omega
      have hrec := ih f { m with store := storeSet m.store key (List.zipWith Val.sub cur (mfs c)) }
        key (List.zipWith Val.sub cur (mfs c))
        (by simp only [List.length_cons] at hf; omega)
        (storeGet_storeSet_self _ _ _)
        (fun c' hc' => by
          rw [storeGet_storeSet_ne _ _ _ _ (hne c' (by simp [hc']))]
          exact hst c' (by simp [hc']))
        (fun c' hc' => hne c' (by simp [hc']))
        (not_mem_invalidKeys_storeSet proj m key _ key hw)
        hkey
        (by rw [List.length_zipWith, hlen, hlens c (by simp)]; simp)
        (fun c' hc' => hlens c' (by simp [hc']))
      simp [subLoopF, getItemF_stored proj f m key cur h0 hcur,
        getItemF_stored proj f m _ (mfs c) h0 (hst c (by simp)),
        setItem_ok proj m key _ hw, hbc, hrec, storeSet_storeSet]

theorem mfKey_inj (a b : String) (h : mfKey a = mfKey b) : a = b := by
  simpa [mfKey] using h

theorem resetLoopF_spec (proj : List Component) :
    ∀ (names : List String) (m : Mixture),
    (∀ n ∈ names, mfKey n ∉ invalidKeys proj m) →
    resetLoopF proj m names =
      .ok { m with
              store := names.foldl
                (fun s n => storeSet s (mfKey n) (List.replicate m.Np Val.nan)) m.store } := by
  intro names
  induction names with
  | nil => intro m _; simp [resetLoopF]
  | cons n tl ih =>
    intro m hw
    have hwn : mfKey n ∉ invalidKeys proj m := hw n (by simp)
    have hbc : broadcastArr m (mfKey n) (NVal.scalar Val.nan) = List.replicate m.Np Val.nan := by
      simp [broadcastArr, mfKey, headSeg, Mixture.count]
    have hrec := ih { m with store := storeSet m.store (mfKey n) (List.replicate m.Np Val.nan) }
      (fun n' hn' => not_mem_invalidKeys_storeSet proj m (mfKey n) _ (mfKey n') (hw n' (by simp [hn'])))
    simp [resetLoopF, setItem_ok proj m (mfKey n) _ hwn, hbc, hrec]

theorem storeGet_foldl_storeSet_not_mem (names : List String) (s : Store) (w : List Val)
    (k : Key) (h : ∀ n ∈ names, mfKey n ≠ k) :
    storeGet (names.foldl (fun s n => storeSet s (mfKey n) w) s) k = storeGet s k := by
  induction names generalizing s with
  | nil => rfl
  | cons n tl ih =>
    simp only [List.foldl_cons]
    rw [ih _ (fun n' hn' => h n' (by simp [hn']))]
    exact storeGet_storeSet_ne s (mfKey n) k w (fun hk => h n (by simp) hk.symm)

theorem storeGet_foldl_storeSet_mem (names : List String) (s : Store) (w : List Val)
    (n : String) (hn : n ∈ names) :
    storeGet (names.foldl (fun s n => storeSet s (mfKey n) w) s) (mfKey n) = some w := by
  induction names generalizing s with
  | nil => simp at hn
  | cons n0 tl ih =>
    simp only [List.foldl_cons]
    by_cases htl : n ∈ tl
    · exact ih _ htl
    · have hn0 : n = n0 := by
        rcases List.mem_cons.mp hn with h | h
        · exact h
        · exact absurd h htl
      subst hn0
      rw [storeGet_foldl_storeSet_not_mem tl _ w (mfKey n)
            (fun n' hn' hk => htl (mfKey_inj n' n hk ▸ hn'))]
      exact storeGet_storeSet_self s (mfKey n) w

theorem count_true_sandwich (bs cs : List Bool) (hb : ∀ b ∈ bs, b = false)
    (hc : ∀ b ∈ cs, b = false) : (bs ++ true :: cs).count true = 1 := by
  have hb0 : bs.count true = 0 := by
    rw [List.count_eq_zero]
    intro hmem
    have := hb true hmem
    simp at this
  have hc0 : cs.count true = 0 := by
    rw [List.count_eq_zero]
    intro hmem
    have := hc true hmem
    simp at this
  simp [List.count_append, List.count_cons, hb0, hc0]

theorem findIdx_sandwich (bs cs : List Bool) (hb : ∀ b ∈ bs, b = false) :
    (bs ++ true :: cs).findIdx (fun b => b) = bs.length := by
  induction bs with
  | nil => simp [List.findIdx_cons]
  | cons b tl ih =>
    have hbf : b = false := hb b (by simp)
    subst hbf
    simp only [List.cons_append, List.findIdx_cons, cond_false]
    rw [ih (fun b' hb' => hb b' (by simp [hb']))]
    simp

theorem name_notin_of_nodup (pre post : List Component) (cf : Component)
    (hnodup : ((pre ++ cf :: post).map (fun c => c.name)).Nodup) :
    ∀ c ∈ pre ++ post, c.name ≠ cf.name := by
  intro c hc he
  rw [List.map_append, List.map_cons, List.nodup_append] at hnodup
  obtain ⟨_, hn2, hdisj⟩ := hnodup
  rcases List.mem_append.mp hc with h | h
  · exact hdisj (List.mem_map.mpr ⟨c, h, rfl⟩) (by simp [he])
  · rw [List.nodup_cons] at hn2
    exact hn2.1 (he ▸ List.mem_map.mpr ⟨c, h, rfl⟩)

theorem mem_up_of_mem_sides (pre post : List Component) (cf : Component) :
    ∀ c ∈ pre ++ post, c ∈ pre ++ cf :: post := by
  intro c hc
  rcases List.mem_append.mp hc with h | h
  · exact List.mem_append.mpr (Or.inl h)
  · exact List.mem_append.mpr (Or.inr (List.mem_cons_of_mem cf h))

/-- C1: with exactly one registered component's pore mole-fraction array containing NaN,
`update_mole_fractions` (called without a released component) back-solves that
component's array at every pore to 1 minus the element-wise sum of all the other
components' arrays, and then recomputes the aggregate as the element-wise sum of the
resulting arrays.  The state hypotheses (every registered name resolving, arrays stored
at network length, names distinct, target keys not shadowing component properties) are
the invariants of any reachable mixture state. -/
theorem C1_free_component_solve
    (proj : List Component) (m : Mixture) (fuel : ℕ)
    (cf : Component) (pre post : List Component) (mfs : Component → List Val)
    (hcomps : componentsOf proj m = pre ++ cf :: post)
    (hnodup : ((pre ++ cf :: post).map (fun c => c.name)).Nodup)
    (hstored : ∀ c ∈ pre ++ cf :: post, storeGet m.store (mfKey c.name) = some (mfs c))
    (hlen : ∀ c ∈ pre ++ cf :: post, (mfs c).length = m.Np)
    (hfree : (mfs cf).any Val.isnan = true)
    (hothers : ∀ c ∈ pre ++ post, (mfs c).any Val.isnan = false)
    (hwf : mfKey cf.name ∉ invalidKeys proj m)
    (hwall : allKey ∉ invalidKeys proj m)
    (hcfall : cf.name ≠ "all")
    (hfuel : (pre ++ cf :: post).length + 3 ≤ fuel) :
    (update_mole_fractions proj fuel m none).map
        (fun m' => (storeGet m'.store (mfKey cf.name), storeGet m'.store allKey)) =
      .ok (some (List.zipWith Val.sub (List.replicate m.Np (Val.num 1))
              (sumArrays m.Np ((pre ++ post).map mfs))),
           some (sumArrays m.Np ((pre ++ cf :: post).map
              (fun c => if c.name = cf.name then
                  List.zipWith Val.sub (List.replicate m.Np (Val.num 1))
                    (sumArrays m.Np ((pre ++ post).map mfs))
                else mfs c)))) := by
  cases fuel with
  | zero => omega
  | succ f =>
    have hlt : (pre ++ cf :: post).length < f := by omega
    have hhas := hasnansF_spec proj mfs (pre ++ cf :: post) f m hlt hstored
    have hballs : ∀ b ∈ pre.map (fun c => (mfs c).any Val.isnan), b = false := by
      intro b hb
      obtain ⟨c, hc, rfl⟩ := List.mem_map.mp hb
      exact hothers c (List.mem_append.mpr (Or.inl hc))
    have hcalls : ∀ b ∈ post.map (fun c => (mfs c).any Val.isnan), b = false := by
      intro b hb
      obtain ⟨c, hc, rfl⟩ := List.mem_map.mp hb
      exact hothers c (List.mem_append.mpr (Or.inr hc))
    have hmap : (pre ++ cf :: post).map (fun c => (mfs c).any Val.isnan) =
        (pre.map (fun c => (mfs c).any Val.isnan)) ++
          true :: (post.map (fun c => (mfs c).any Val.isnan)) := by
      simp [List.map_append, hfree]
    have hcount : ((pre ++ cf :: post).map (fun c => (mfs c).any Val.isnan)).count true = 1 := by
      rw [hmap]
      exact count_true_sandwich _ _ hballs hcalls
    have hidx : ((pre ++ cf :: post).map (fun c => (mfs c).any Val.isnan)).findIdx
        (fun b => b) = pre.length := by
      rw [hmap]
      have := findIdx_sandwich (pre.map (fun c => (mfs c).any Val.isnan))
        (post.map (fun c => (mfs c).any Val.isnan)) hballs
      simpa using this
    have hdrop : (pre ++ cf :: post).drop pre.length = cf :: post :=
      List.drop_left pre (cf :: post)
    have htake : (pre ++ cf :: post).take pre.length = pre :=
      List.take_left pre (cf :: post)
    have hbc1 : broadcastArr m (mfKey cf.name) (NVal.scalar (Val.num 1)) =
        List.replicate m.Np (Val.num 1) := by
      simp [broadcastArr, mfKey, headSeg, Mixture.count]
    have hset1 : setItem proj m (mfKey cf.name) (NVal.scalar (Val.num 1)) =
        .ok { m with
                store := storeSet m.store (mfKey cf.name)
                  (List.replicate m.Np (Val.num 1)) } := by
      rw [setItem_ok proj m _ _ hwf, hbc1]
    have hnames := name_notin_of_nodup pre post cf hnodup
    have hkeyne : ∀ c ∈ pre ++ post, mfKey c.name ≠ mfKey cf.name :=
      fun c hc he => hnames c hc (mfKey_inj _ _ he)
    have hrestlen : (pre ++ post).length < f := by
      have h1 : (pre ++ post).length ≤ (pre ++ cf :: post).length := by
        simp only [List.length_append, List.length_cons]
        omega
      omega
    have hfold : (pre ++ post).foldl (fun acc c => List.zipWith Val.sub acc (mfs c))
        (List.replicate m.Np (Val.num 1)) =
        List.zipWith Val.sub (List.replicate m.Np (Val.num 1))
          (sumArrays m.Np ((pre ++ post).map mfs)) := by
      rw [← List.foldl_map]
      refine foldl_sub_eq _ _ m.Np (by simp) ?_
      intro l hl
      obtain ⟨c, hc, rfl⟩ := List.mem_map.mp hl
      exact hlen c (mem_up_of_mem_sides pre post cf c hc)
    have hsub := subLoopF_spec proj mfs (pre ++ post) f
      { m with store := storeSet m.store (mfKey cf.name) (List.replicate m.Np (Val.num 1)) }
      (mfKey cf.name) (List.replicate m.Np (Val.num 1))
      hrestlen
      (storeGet_storeSet_self _ _ _)
      (fun c hc => by
        rw [storeGet_storeSet_ne _ _ _ _ (hkeyne c hc)]
        exact hstored c (mem_up_of_mem_sides pre post cf c hc))
      hkeyne
      (not_mem_invalidKeys_storeSet proj m _ _ _ hwf)
      (by simp [mfKey, headSeg])
      (by simp)
      (fun c hc => hlen c (mem_up_of_mem_sides pre post cf c hc))
    have hsub' : subLoopF proj f
        { m with store := storeSet m.store (mfKey cf.name) (List.replicate m.Np (Val.num 1)) }
        (mfKey cf.name) (pre ++ post) =
        .ok { m with
                store := storeSet m.store (mfKey cf.name)
                  (List.zipWith Val.sub (List.replicate m.Np (Val.num 1))
                    (sumArrays m.Np ((pre ++ post).map mfs))) } := by
      rw [hsub]
      simp [storeSet_storeSet, hfold]
    set NF := List.zipWith Val.sub (List.replicate m.Np (Val.num 1))
      (sumArrays m.Np ((pre ++ post).map mfs)) with hNF
    have hlenNF : NF.length = m.Np := by
      rw [hNF, List.length_zipWith, List.length_replicate, sumArrays_length]
      · omega
      · intro l hl
        obtain ⟨c, hc, rfl⟩ := List.mem_map.mp hl
        exact hlen c (mem_up_of_mem_sides pre post cf c hc)
    have hw4 : allKey ∉ invalidKeys proj
        { m with store := storeSet m.store (mfKey cf.name) NF } :=
      not_mem_invalidKeys_storeSet proj m _ _ _ hwall
    have hcomps4 : componentsOf proj
        { m with store := storeSet m.store (mfKey cf.name) NF } = pre ++ cf :: post := by
      rw [componentsOf_store_irrel, hcomps]
    have hstored4 : ∀ c ∈ pre ++ cf :: post,
        storeGet (storeSet m.store (mfKey cf.name) NF) (mfKey c.name) =
          some (if c.name = cf.name then NF else mfs c) := by
      intro c hc
      by_cases hcn : c.name = cf.name
      · rw [if_pos hcn, hcn]
        exact storeGet_storeSet_self _ _ _
      · rw [if_neg hcn, storeGet_storeSet_ne _ _ _ _ (fun he => hcn (mfKey_inj _ _ he))]
        exact hstored c hc
    have hlens4 : ∀ c ∈ pre ++ cf :: post,
        (if c.name = cf.name then NF else mfs c).length = m.Np := by
      intro c hc
      by_cases hcn : c.name = cf.name
      · rw [if_pos hcn]
        exact hlenNF
      · rw [if_neg hcn]
        exact hlen c hc
    have hupd := update_total_molfrac_spec proj
      { m with store := storeSet m.store (mfKey cf.name) NF } f
      (fun c => if c.name = cf.name then NF else mfs c)
      (by rw [hcomps4]; omega)
      (by rw [hcomps4]; exact hstored4)
      hw4
    have hagg : broadcastArr { m with store := storeSet m.store (mfKey cf.name) NF } allKey
        ((pre ++ cf :: post).foldl
          (fun a c => NVal.addArr a (if c.name = cf.name then NF else mfs c))
          (NVal.scalar (Val.num 0))) =
        sumArrays m.Np ((pre ++ cf :: post).map
          (fun c => if c.name = cf.name then NF else mfs c)) :=
      fold_addArr_broadcast _ _ _ hlens4
    have hupd' : update_total_molfrac proj f
        { m with store := storeSet m.store (mfKey cf.name) NF } =
        .ok { m with
                store := storeSet (storeSet m.store (mfKey cf.name) NF) allKey
                  (sumArrays m.Np ((pre ++ cf :: post).map
                    (fun c => if c.name = cf.name then NF else mfs c))) } := by
      rw [hupd]
      simp only [hcomps4, hagg]
    have hne_all : mfKey cf.name ≠ allKey := by
      simp [mfKey, allKey, hcfall]
    have hget1 : storeGet (storeSet (storeSet m.store (mfKey cf.name) NF) allKey
        (sumArrays m.Np ((pre ++ cf :: post).map
          (fun c => if c.name = cf.name then NF else mfs c)))) (mfKey cf.name) =
        some NF := by
      rw [storeGet_storeSet_ne _ _ _ _ hne_all]
      exact storeGet_storeSet_self _ _ _
    have hget2 : storeGet (storeSet (storeSet m.store (mfKey cf.name) NF) allKey
        (sumArrays m.Np ((pre ++ cf :: post).map
          (fun c => if c.name = cf.name then NF else mfs c)))) allKey =
        some (sumArrays m.Np ((pre ++ cf :: post).map
          (fun c => if c.name = cf.name then NF else mfs c))) :=
      storeGet_storeSet_self _ _ _
    simp only [update_mole_fractions, hcomps, hhas, hcount, hidx, hdrop, htake,
      List.headD_cons, List.drop_succ_cons, List.drop_zero, hset1, hsub', hupd',
      Except.map, hget1, hget2]
    rw [if_pos trivial]
    simp only [hupd', hget1, hget2]

/-- Witness for C1: components A at 0.3, B at 0.5, C unset, on two pores; after
`update_mole_fractions` C's array is 0.2 in every pore and the aggregate is 1.0
everywhere. -/
theorem C1_free_component_solve_witness :
    (update_mole_fractions projABC 10 mABC none).map
        (fun m' => (storeGet m'.store (mfKey "C"), storeGet m'.store allKey)) =
      .ok (some [Val.num (1/5), Val.num (1/5)], some [Val.num 1, Val.num 1]) := by
  have h := C1_free_component_solve projABC mABC 10 compC [compA, compB] []
    (fun c => if c.name = "C" then [Val.nan, Val.nan]
      else if c.name = "B" then [Val.num (1/2), Val.num (1/2)]
      else [Val.num (3/10), Val.num (3/10)])
    rfl (by decide) (by intro c hc; fin_cases hc <;> rfl)
    (by intro c hc; fin_cases hc <;> rfl) rfl
    (by intro c hc; fin_cases hc <;> rfl)
    (by decide) (by decide) (by decide) (by decide)
  simp only [show compC.name = "C" from rfl] at h
  rw [h]
  norm_num [mABC, projABC, compA, compB, compC, sumArrays, Val.add, Val.sub,
    List.replicate_succ, eq_false (by decide : ¬ ("A" : String) = "C"),
    eq_false (by decide : ¬ ("A" : String) = "B"),
    eq_false (by decide : ¬ ("B" : String) = "C")]

/-- C4: the invalid write targets of mixture `__setitem__` are exactly the
component-qualified keys reachable by deep delegation and not already overridden on the
mixture; writing such a key fails with the already-assigned error and stores nothing
(the state is returned unchanged only inside `.ok`, so an error leaves no write), and
writing any other key stores normally. -/
theorem C4_write_protection (proj : List Component) (m : Mixture) (k : Key) (v : NVal) :
    (k ∈ invalidKeys proj m ↔
      ((∃ c ∈ componentsOf proj m, ∃ kv ∈ c.store, kv.1 ++ [c.name] = k) ∧
        k ∉ propsOwn m)) ∧
    (k ∈ invalidKeys proj m → setItem proj m k v = .error (.alreadyAssigned k)) ∧
    (k ∉ invalidKeys proj m →
      setItem proj m k v =
        .ok { m with store := storeSet m.store k (broadcastArr m k v) }) :=
  ⟨mem_invalidKeys_iff proj m k,
   fun h => by simp [setItem, h],
   fun h => setItem_ok proj m k v h⟩

/-- Witness for C4: with component "water" carrying "pore.density", a mixture write to
"pore.density.water" fails with the already-assigned error. -/
theorem C4_write_protection_witness :
    setItem projW mW ["pore", "density", "water"] (NVal.scalar (Val.num 1)) =
      .error (.alreadyAssigned ["pore", "density", "water"]) :=
  (C4_write_protection projW mW ["pore", "density", "water"]
    (NVal.scalar (Val.num 1))).2.1 (by decide)

/-- C5: a key whose last segment names a registered component and that is not stored on
the mixture is served by delegation: the mixture returns exactly the array stored on the
resolved component under the key with the qualifier stripped, leaving the state
untouched. -/
theorem C5_delegation (proj : List Component) (m : Mixture) (key : Key) (c : Component)
    (v : List Val) (fuel : ℕ)
    (hdirect : storeGet m.store key = none)
    (hname : lastSeg key ∈ m.comps)
    (hresolve : lookupComp proj (lastSeg key) = some c)
    (hcomp : storeGet c.store (stripLast key) = some v)
    (hfuel : 0 < fuel) :
    getItemF proj fuel m key = .ok (v, m) := by
  cases fuel with
  | zero => omega
  | succ f => simp [getItemF, hdirect, hname, hresolve, hcomp]

/-- Witness for C5: reading "pore.density.water" on the mixture returns exactly the
water component's "pore.density" array. -/
theorem C5_delegation_witness :
    getItemF projW 5 mW ["pore", "density", "water"] = .ok ([Val.num 10], mW) :=
  C5_delegation projW mW ["pore", "density", "water"] water [Val.num 10] 5
    rfl (by decide) rfl rfl (by decide)

/-- C10: `set_concentration` with an empty values array (the default) performs only the
membership validation and leaves the mixture state entirely unchanged: no concentration
key is written and no mole-fraction array is reset. -/
theorem C10_empty_values_noop (proj : List Component) (m : Mixture) (c : Component)
    (h1 : c ∈ proj) (h2 : c ∈ componentsOf proj m) :
    set_concentration proj m c [] = .ok m := by
  simp [set_concentration, h1, h2]

/-- Witness for C10: an empty-values `set_concentration` call on the A/B/C mixture
returns the state unchanged. -/
theorem C10_empty_values_noop_witness :
    set_concentration projABC mABC compA [] = .ok mABC :=
  C10_empty_values_noop projABC mABC compA (by decide) (by decide)

/-- C3: evaluation of the `_del_comps` slip.  Removing the sequence [A, B] from a
mixture storing both components' mole-fraction arrays deregisters both names and resets
the aggregate, but deletes only the keys ending in the *last* component's name: the key
`pore.mole_fraction.A` survives, contradicting the claim that for each given component
no stored key ending in its name remains.  (The deletion loop in the source is dedented
out of the per-component loop and uses the stale loop variable.) -/
theorem C3_remove_cleanup_bug_eval :
    (del_comps projAB mHalf [compA, compB]).map
        (fun m' => (m'.comps, storeGet m'.store (mfKey "A"), storeGet m'.store allKey)) =
      .ok ([], some [Val.num (1/2)], some [Val.nan]) := by
  rfl

/-- Counterexample to C2 as stated: for the throat element kind no unity check exists.
A request for the uncached derived key `throat.viscosity` on a mixture whose throat
aggregate mole fraction is 2.0 (not unity, not renormalizable) does not fail: it
returns the weighted blend 3.0 × 2.0 = 6.0, and the state comes back unchanged (so the
aggregate update was not even invoked). -/
theorem C2_throat_no_unity_check :
    getItemF projV 10 mThroat ["throat", "viscosity"] = .ok ([Val.num 6], mThroat) ∧
    storeGet mThroat.store ["throat", "mole_fraction", "all"] = some [Val.num 2] ∧
    ¬ (2 : ℚ) = 1 := by
  refine ⟨?_, rfl, by norm_num⟩
  simp [getItemF, interleaveF, accumF, poreUnityCheckF, base_interleave_data, projV,
    mThroat, compV, componentsOf, lookupComp, Mixture.count, headSeg, lastSeg, storeGet,
    Val.mul, Val.add]
  norm_num

/-- Counterexample to C8 as stated: `check_mixture_health` can raise.  On a mixture
that registers component A without a seeded mole-fraction array (reachable through
`set_component(A, mode='add')`), the aggregate recompute reads
`pore.mole_fraction.A`, delegation and interleaving both fail, and the KeyError
propagates out of `check_mixture_health`. -/
theorem C8_health_check_raises :
    check_mixture_health projAB 10 mUnseeded = .error (.keyError (mfKey "A")) := by
  simp [check_mixture_health, update_total_molfrac, sumMolfracF, getItemF, interleaveF,
    accumF, poreUnityCheckF, base_interleave_data, projAB, mUnseeded, compA, compB,
    componentsOf, lookupComp, Mixture.count, headSeg, lastSeg, stripLast, storeGet,
    mfKey, allKey, Val.neqOne, setItem]

/-- C2 (amended): for the *pore* element kind, a request for a derived key that is
neither stored nor delegatable, on a mixture whose stored pore aggregate differs from
1.0 somewhere, invokes the aggregate recompute once, and when the recomputed aggregate
still differs from 1.0 somewhere the request fails with the hard
composition-not-normalized error.  (The source performs this check only when the
element is "pore"; for throats no check exists.) -/
theorem C2_pore_unity_hard_error
    (proj : List Component) (m : Mixture) (fuel : ℕ) (prop : Key)
    (mfs : Component → List Val) (aggOld : List Val)
    (hprop : headSeg prop = "pore")
    (hnone : storeGet m.store prop = none)
    (hnotcomp : lastSeg prop ∉ m.comps)
    (hagg : storeGet m.store allKey = some aggOld)
    (hbad1 : aggOld.any Val.neqOne = true)
    (hstored : ∀ c ∈ componentsOf proj m, storeGet m.store (mfKey c.name) = some (mfs c))
    (hlen : ∀ c ∈ componentsOf proj m, (mfs c).length = m.Np)
    (hbad2 : (sumArrays m.Np ((componentsOf proj m).map mfs)).any Val.neqOne = true)
    (hwall : allKey ∉ invalidKeys proj m)
    (hfuel : (componentsOf proj m).length + 5 ≤ fuel) :
    getItemF proj fuel m prop = .error (.notNormalized "pore") := by
  cases fuel with
  | zero => omega
  | succ f =>
    cases f with
    | zero => omega
    | succ f1 =>
      cases f1 with
      | zero => omega
      | succ f2 =>
        have h0 : 0 < f2 := by omega
        have hspec := update_total_molfrac_spec proj m f2 mfs (by omega) hstored hwall
        have hbc := fold_addArr_broadcast m (componentsOf proj m) mfs hlen
        have hget2 : getItemF proj f2
            { m with
                store := storeSet m.store allKey
                  (broadcastArr m allKey ((componentsOf proj m).foldl
                    (fun a c => NVal.addArr a (mfs c)) (NVal.scalar (Val.num 0)))) }
            allKey =
            .ok (sumArrays m.Np ((componentsOf proj m).map mfs),
              { m with
                  store := storeSet m.store allKey
                    (broadcastArr m allKey ((componentsOf proj m).foldl
                      (fun a c => NVal.addArr a (mfs c)) (NVal.scalar (Val.num 0)))) }) := by
          have := getItemF_stored proj f2
            { m with
                store := storeSet m.store allKey
                  (broadcastArr m allKey ((componentsOf proj m).foldl
                    (fun a c => NVal.addArr a (mfs c)) (NVal.scalar (Val.num 0)))) }
            allKey (broadcastArr m allKey ((componentsOf proj m).foldl
                    (fun a c => NVal.addArr a (mfs c)) (NVal.scalar (Val.num 0))))
            h0 (storeGet_storeSet_self _ _ _)
          rw [this, hbc]
        have hchk : poreUnityCheckF proj (f2 + 1) m "pore" =
            .error (.notNormalized "pore") := by
          have hg1 : getItemF proj f2 m ["pore", "mole_fraction", "all"] =
              .ok (aggOld, m) := getItemF_stored proj f2 m _ aggOld h0 hagg
          simp only [poreUnityCheckF, hg1, hbad1, if_true, hspec]
          rw [show (["pore", "mole_fraction", "all"] : Key) = allKey from rfl]
          simp only [hget2, hbad2]
          simp
        simp [getItemF, hnone, hnotcomp, interleaveF, hprop, hchk]

/-- Witness for the amended C2: A at 0.4 and B at 0.5 leave the pore aggregate at 0.9,
which cannot renormalize to unity, so requesting the uncached derived property
`pore.viscosity` fails with the composition-not-normalized error. -/
theorem C2_pore_unity_hard_error_witness :
    getItemF projAB 10 mUnder ["pore", "viscosity"] = .error (.notNormalized "pore") := by
  have hco : componentsOf projAB mUnder = [compA, compB] := rfl
  refine C2_pore_unity_hard_error projAB mUnder 10 ["pore", "viscosity"]
    (fun c => if c.name = "A" then [Val.num (2/5)] else [Val.num (1/2)])
    [Val.num (9/10)] rfl rfl (by decide) rfl
    (by norm_num [Val.neqOne])
    (by rw [hco]; intro c hc; fin_cases hc <;> rfl)
    (by rw [hco]; intro c hc; fin_cases hc <;> rfl)
    ?_ (by decide) (by rw [hco]; decide)
  rw [hco]
  norm_num [sumArrays, Val.add, Val.neqOne, List.any_cons, compA, compB, mUnder,
    List.replicate, eq_false (by decide : ¬ ("B" : String) = "A")]

theorem if_length_pos_eq (l : List ℕ) : (if l.length > 0 then l else []) = l := by
  cases l <;> simp

/-- C8 (amended): on a mixture state in which every registered component's pore
mole-fraction array is stored (the state every reconciler operation maintains),
`check_mixture_health` does not raise: it recomputes the aggregate as the element-wise
sum of the components' arrays and reports exactly the pore indices where that sum is
strictly below 1.0 as too-low and strictly above 1.0 as too-high; both are empty when
the sum is 1.0 everywhere.  In a state where a registered component lacks its
mole-fraction array the operation can instead raise (see the counterexample). -/
theorem C8_health_check_reports
    (proj : List Component) (m : Mixture) (fuel : ℕ) (mfs : Component → List Val)
    (hstored : ∀ c ∈ componentsOf proj m, storeGet m.store (mfKey c.name) = some (mfs c))
    (hlen : ∀ c ∈ componentsOf proj m, (mfs c).length = m.Np)
    (hwall : allKey ∉ invalidKeys proj m)
    (hfuel : (componentsOf proj m).length + 1 < fuel) :
    (check_mixture_health proj fuel m).map
        (fun r => (r.1.mole_fraction_too_low, r.1.mole_fraction_too_high,
          storeGet r.2.store allKey)) =
      .ok (whereLtOne (sumArrays m.Np ((componentsOf proj m).map mfs)),
        whereGtOne (sumArrays m.Np ((componentsOf proj m).map mfs)),
        some (sumArrays m.Np ((componentsOf proj m).map mfs))) := by
  have h0 : 0 < fuel := by omega
  have hspec := update_total_molfrac_spec proj m fuel mfs hfuel hstored hwall
  have hbc := fold_addArr_broadcast m (componentsOf proj m) mfs hlen
  rw [hbc] at hspec
  have hg2 := getItemF_stored proj fuel
    { m with
        store := storeSet m.store allKey
          (sumArrays m.Np ((componentsOf proj m).map mfs)) }
    allKey (sumArrays m.Np ((componentsOf proj m).map mfs)) h0
    (storeGet_storeSet_self _ _ _)
  simp [check_mixture_health, hspec, hg2, if_length_pos_eq, Except.map,
    storeGet_storeSet_self]

/-- Witness for the amended C8: with two components at mole fraction 0.6 in both pores,
the health check reports every pore in too-high and none in too-low, without raising. -/
theorem C8_health_check_reports_witness :
    (check_mixture_health projAB 10 mOver).map
        (fun r => (r.1.mole_fraction_too_low, r.1.mole_fraction_too_high,
          storeGet r.2.store allKey)) =
      .ok ([], [0, 1], some [Val.num (6/5), Val.num (6/5)]) := by
  have hco : componentsOf projAB mOver = [compA, compB] := rfl
  have h := C8_health_check_reports projAB mOver 10
    (fun _ => [Val.num (3/5), Val.num (3/5)])
    (by rw [hco]; intro c hc; fin_cases hc <;> rfl)
    (by rw [hco]; intro c hc; fin_cases hc <;> rfl)
    (by decide) (by rw [hco]; decide)
  rw [h]
  norm_num [sumArrays, Val.add, Val.ltOne, Val.gtOne, whereLtOne, whereGtOne, hco,
    mOver, List.replicate, List.enum, List.enumFrom]

/-- Counterexample to C9 as stated: a fully-specified mixture with two components both
at mole fraction 0.6 still sums to 1.2 ≠ 1.0 after the aggregate recompute —
`_update_total_molfrac` only sums, it does not normalize. -/
theorem C9_aggregate_not_unity :
    (update_total_molfrac projAB 5 mOver).map (fun m' => storeGet m'.store allKey) =
      .ok (some [Val.num (6/5), Val.num (6/5)]) ∧ ¬ (6/5 : ℚ) = 1 := by
  constructor
  · have hco : componentsOf projAB mOver = [compA, compB] := rfl
    have hspec := update_total_molfrac_spec projAB mOver 5
      (fun _ => [Val.num (3/5), Val.num (3/5)])
      (by rw [hco]; decide) (by rw [hco]; intro c hc; fin_cases hc <;> rfl) (by decide)
    have hbc := fold_addArr_broadcast mOver (componentsOf projAB mOver)
      (fun _ => [Val.num (3/5), Val.num (3/5)])
      (by rw [hco]; intro c hc; fin_cases hc <;> rfl)
    rw [hspec]
    simp only [Except.map, storeGet_storeSet_self, hbc]
    norm_num [sumArrays, Val.add, hco, mOver, List.replicate]
  · norm_num

/-- C9 (amended): for any mixture with at least one registered component and
fully-specified (NaN-free) stored mole-fraction arrays, the aggregate recompute stores
`pore.mole_fraction.all` as exactly the element-wise sum over components of their
arrays; that sum equals 1.0 at a pore only when the stored composition is itself
consistent there. -/
theorem C9_aggregate_is_sum
    (proj : List Component) (m : Mixture) (fuel : ℕ) (mfs : Component → List Val)
    (_hne : componentsOf proj m ≠ [])
    (hstored : ∀ c ∈ componentsOf proj m, storeGet m.store (mfKey c.name) = some (mfs c))
    (hlen : ∀ c ∈ componentsOf proj m, (mfs c).length = m.Np)
    (_hnonan : ∀ c ∈ componentsOf proj m, (mfs c).any Val.isnan = false)
    (hwall : allKey ∉ invalidKeys proj m)
    (hfuel : (componentsOf proj m).length + 1 < fuel) :
    (update_total_molfrac proj fuel m).map (fun m' => storeGet m'.store allKey) =
      .ok (some (sumArrays m.Np ((componentsOf proj m).map mfs))) := by
  rw [update_total_molfrac_spec proj m fuel mfs hfuel hstored hwall]
  simp only [Except.map, storeGet_storeSet_self,
    fold_addArr_broadcast m (componentsOf proj m) mfs hlen]

/-- Witness for the amended C9: components A and B at 0.5 each on one pore; the
recomputed aggregate is the sum 1.0. -/
theorem C9_aggregate_is_sum_witness :
    (update_total_molfrac projAB 5 mHalf).map (fun m' => storeGet m'.store allKey) =
      .ok (some [Val.num 1]) := by
  have hco : componentsOf projAB mHalf = [compA, compB] := rfl
  have h := C9_aggregate_is_sum projAB mHalf 5 (fun _ => [Val.num (1/2)])
    (by rw [hco]; decide)
    (by rw [hco]; intro c hc; fin_cases hc <;> rfl)
    (by rw [hco]; intro c hc; fin_cases hc <;> rfl)
    (by rw [hco]; intro c hc; fin_cases hc <;> rfl)
    (by decide) (by rw [hco]; decide)
  rw [h]
  norm_num [sumArrays, Val.add, hco, mHalf, List.replicate]

theorem mfKey_ne_concKey (a b : String) : mfKey a ≠ concKey b := by
  simp [mfKey, concKey]

/-- C6: `set_concentration` on a member component with non-empty values stores the
values under `pore.concentration.<name>`, resets every registered component's
`pore.mole_fraction.<name>` array to NaN, and touches nothing else. -/
theorem C6_set_concentration_resets
    (proj : List Component) (m : Mixture) (component : Component) (values : List Val)
    (h1 : component ∈ proj) (h2 : component ∈ componentsOf proj m)
    (hne : values ≠ [])
    (hlenv : values.length = m.Np)
    (hwc : concKey component.name ∉ invalidKeys proj m)
    (hwm : ∀ n ∈ m.comps, mfKey n ∉ invalidKeys proj m) :
    set_concentration proj m component values =
      .ok { m with
              store := m.comps.foldl
                (fun s n => storeSet s (mfKey n) (List.replicate m.Np Val.nan))
                (storeSet m.store (concKey component.name) values) } ∧
    (∀ n ∈ m.comps,
      storeGet (m.comps.foldl
          (fun s n => storeSet s (mfKey n) (List.replicate m.Np Val.nan))
          (storeSet m.store (concKey component.name) values)) (mfKey n) =
        some (List.replicate m.Np Val.nan)) ∧
    storeGet (m.comps.foldl
        (fun s n => storeSet s (mfKey n) (List.replicate m.Np Val.nan))
        (storeSet m.store (concKey component.name) values)) (concKey component.name) =
      some values ∧
    (∀ k, k ≠ concKey component.name → (∀ n ∈ m.comps, k ≠ mfKey n) →
      storeGet (m.comps.foldl
          (fun s n => storeSet s (mfKey n) (List.replicate m.Np Val.nan))
          (storeSet m.store (concKey component.name) values)) k = storeGet m.store k) := by
  have hv0 : values.length ≠ 0 := fun h => hne (List.length_eq_zero.mp h)
  have hbc : broadcastArr m (concKey component.name) (NVal.arr values) = values :=
    broadcastArr_self m _ values (by simpa [concKey, headSeg, Mixture.count] using hlenv)
  have hset := setItem_ok proj m (concKey component.name) (NVal.arr values) hwc
  rw [hbc] at hset
  have hreset := resetLoopF_spec proj m.comps
    { m with store := storeSet m.store (concKey component.name) values }
    (fun n hn => not_mem_invalidKeys_storeSet proj m _ _ _ (hwm n hn))
  refine ⟨?_, fun n hn => storeGet_foldl_storeSet_mem m.comps _ _ n hn, ?_, ?_⟩
  · simp [set_concentration, h1, h2, hv0, hset, reset_molefracs, hreset]
  · rw [storeGet_foldl_storeSet_not_mem _ _ _ _
      (fun n _ => mfKey_ne_concKey n component.name)]
    exact storeGet_storeSet_self _ _ _
  · intro k hk1 hk2
    rw [storeGet_foldl_storeSet_not_mem _ _ _ _ (fun n hn he => hk2 n hn he.symm)]
    exact storeGet_storeSet_ne _ _ _ _ hk1

/-- Witness for C6: storing concentrations [2, 3] for A on the A/B/C mixture records
them under `pore.concentration.A` and resets B's and C's mole fractions to NaN. -/
theorem C6_set_concentration_resets_witness :
    (set_concentration projABC mABC compA [Val.num 2, Val.num 3]).map
        (fun m' => (storeGet m'.store (concKey "A"), storeGet m'.store (mfKey "B"),
          storeGet m'.store (mfKey "C"))) =
      .ok (some [Val.num 2, Val.num 3], some [Val.nan, Val.nan],
        some [Val.nan, Val.nan]) := by
  have h := (C6_set_concentration_resets projABC mABC compA [Val.num 2, Val.num 3]
    (by decide) (by decide) (by simp) (by decide) (by decide) (by decide)).1
  rw [h]
  rfl

/-- C7: `set_mole_fraction` on a member component with values containing an entry
outside [0, 1] warns (first result component true) and does not fail: the values are
stored under `pore.mole_fraction.<name>`, the aggregate is recomputed as the sum of the
current arrays, and (second conjunct) every key other than the target and the aggregate
is left unchanged — in particular no concentration array and no other component's
mole-fraction array. -/
theorem C7_out_of_range_warns
    (proj : List Component) (m : Mixture) (fuel : ℕ) (component : Component)
    (values : List Val) (mfs : Component → List Val) (q : ℚ)
    (h1 : component ∈ proj) (h2 : component ∈ componentsOf proj m)
    (hq : Val.num q ∈ values) (hqr : 1 < q ∨ q < 0)
    (hlenv : values.length = m.Np)
    (hstored : ∀ c ∈ componentsOf proj m, storeGet m.store (mfKey c.name) = some (mfs c))
    (hlen : ∀ c ∈ componentsOf proj m, (mfs c).length = m.Np)
    (hwk : mfKey component.name ∉ invalidKeys proj m)
    (hwall : allKey ∉ invalidKeys proj m)
    (hcall : component.name ≠ "all")
    (hfuel : (componentsOf proj m).length + 1 < fuel) :
    (set_mole_fraction proj fuel m component values).map
        (fun r => (r.1, storeGet r.2.store (mfKey component.name),
          storeGet r.2.store allKey)) =
      .ok (true, some values,
        some (sumArrays m.Np ((componentsOf proj m).map
          (fun c => if c.name = component.name then values else mfs c)))) ∧
    (∀ k, k ≠ mfKey component.name → k ≠ allKey →
      (set_mole_fraction proj fuel m component values).map
          (fun r => storeGet r.2.store k) = .ok (storeGet m.store k)) := by
  have hv0 : values.length ≠ 0 :=
    fun h => (List.ne_nil_of_mem hq) (List.length_eq_zero.mp h)
  have hwarn : (values.any Val.gtOne || values.any Val.ltZero) = true := by
    rcases hqr with h | h
    · have hg : values.any Val.gtOne = true :=
        List.any_eq_true.mpr ⟨Val.num q, hq, by simp [Val.gtOne]; exact h⟩
      simp [hg]
    · have hg : values.any Val.ltZero = true :=
        List.any_eq_true.mpr ⟨Val.num q, hq, by simp [Val.ltZero]; exact h⟩
      simp [hg]
  have hbcv : broadcastArr m (mfKey component.name) (NVal.arr values) = values :=
    broadcastArr_self m _ values (by simpa [mfKey, headSeg, Mixture.count] using hlenv)
  have hset := setItem_ok proj m (mfKey component.name) (NVal.arr values) hwk
  rw [hbcv] at hset
  have hcomps1 : componentsOf proj
      { m with store := storeSet m.store (mfKey component.name) values } =
      componentsOf proj m := componentsOf_store_irrel proj m _
  have hstored1 : ∀ c ∈ componentsOf proj m,
      storeGet (storeSet m.store (mfKey component.name) values) (mfKey c.name) =
        some (if c.name = component.name then values else mfs c) := by
    intro c hc
    by_cases hcn : c.name = component.name
    · rw [if_pos hcn, hcn]
      exact storeGet_storeSet_self _ _ _
    · rw [if_neg hcn, storeGet_storeSet_ne _ _ _ _ (fun he => hcn (mfKey_inj _ _ he))]
      exact hstored c hc
  have hlens1 : ∀ c ∈ componentsOf proj m,
      (if c.name = component.name then values else mfs c).length = m.Np := by
    intro c hc
    by_cases hcn : c.name = component.name
    · rw [if_pos hcn]
      exact hlenv
    · rw [if_neg hcn]
      exact hlen c hc
  have hupd := update_total_molfrac_spec proj
    { m with store := storeSet m.store (mfKey component.name) values } fuel
    (fun c => if c.name = component.name then values else mfs c)
    (by rw [hcomps1]; exact hfuel)
    (by rw [hcomps1]; exact hstored1)
    (not_mem_invalidKeys_storeSet proj m _ _ _ hwall)
  have hbc2 := fold_addArr_broadcast
    { m with store := storeSet m.store (mfKey component.name) values }
    (componentsOf proj m)
    (fun c => if c.name = component.name then values else mfs c) hlens1
  rw [hcomps1, hbc2] at hupd
  have hne_all : mfKey component.name ≠ allKey := by
    simp [mfKey, allKey, hcall]
  constructor
  · have hg1 : storeGet (storeSet (storeSet m.store (mfKey component.name) values)
        allKey (sumArrays m.Np ((componentsOf proj m).map
          (fun c => if c.name = component.name then values else mfs c))))
        (mfKey component.name) = some values := by
      rw [storeGet_storeSet_ne _ _ _ _ hne_all]
      exact storeGet_storeSet_self _ _ _
    simp [set_mole_fraction, h1, h2, hv0, hset, hupd, Except.map, hwarn, hg1,
      storeGet_storeSet_self]
  · intro k hk1 hk2
    have hgk : storeGet (storeSet (storeSet m.store (mfKey component.name) values)
        allKey (sumArrays m.Np ((componentsOf proj m).map
          (fun c => if c.name = component.name then values else mfs c)))) k =
        storeGet m.store k := by
      rw [storeGet_storeSet_ne _ _ _ _ hk2, storeGet_storeSet_ne _ _ _ _ hk1]
    simp [set_mole_fraction, h1, h2, hv0, hset, hupd, Except.map, hgk]

/-- Witness for C7: setting A's mole fractions to [1.2, 0.5] (1.2 lies outside [0, 1])
on the A/B/C mixture warns, stores the values, leaves B's array untouched, and
recomputes the aggregate (NaN here, since C is unset). -/
theorem C7_out_of_range_warns_witness :
    (set_mole_fraction projABC 10 mABC compA [Val.num (6/5), Val.num (1/2)]).map
        (fun r => (r.1, storeGet r.2.store (mfKey "A"), storeGet r.2.store allKey)) =
      .ok (true, some [Val.num (6/5), Val.num (1/2)], some [Val.nan, Val.nan]) := by
  have hco : componentsOf projABC mABC = [compA, compB, compC] := rfl
  have h := (C7_out_of_range_warns projABC mABC 10 compA
    [Val.num (6/5), Val.num (1/2)]
    (fun c => if c.name = "B" then [Val.num (1/2), Val.num (1/2)]
      else if c.name = "C" then [Val.nan, Val.nan]
      else [Val.num (3/10), Val.num (3/10)])
    (6/5)
    (by decide) (by decide) (by simp) (by norm_num) (by decide)
    (by rw [hco]; intro c hc; fin_cases hc <;> rfl)
    (by rw [hco]; intro c hc; fin_cases hc <;> rfl)
    (by decide) (by decide) (by decide) (by rw [hco]; decide)).1
  simp only [show compA.name = "A" from rfl] at h
  rw [h]
  norm_num [sumArrays, Val.add, hco, show mABC.Np = 2 from rfl, List.replicate,
    compA, compB, compC,
    eq_false (by decide : ¬ ("B" : String) = "A"),
    eq_false (by decide : ¬ ("C" : String) = "A"),
    eq_false (by decide : ¬ ("C" : String) = "B")]
